import Mathlib

/-!
Verification of the core numerical algorithms of `pqc.py` (robust topological
photonics simulator): extended-Hilbert-space operator construction, the
disordered SSH Hamiltonian, embedded-qubit measurement, the holographic DFT
qudit transform with nonlinear phase gate, and the Berry-curvature / Chern
number engine.

Machine floating point is modelled by exact real/complex arithmetic; the
external eigensolver and the seeded random generator are modelled as explicit
function parameters (their outputs are inputs to the algorithms here, matching
the spec's external-collaborator boundary).
-/

open Matrix Complex

open scoped ComplexOrder

namespace PQC

/-! ## Single-site operators (qutip `qeye(2)`, `destroy(2)`, `create(2)`, `num(2)`) -/

/-- qutip `destroy(2)`: the 2x2 lowering operator, entry (0,1) = 1. -/
def destroy2 : Matrix (Fin 2) (Fin 2) ℂ := Matrix.of ![![0, 1], ![0, 0]]

/-- qutip `create(2)`: the 2x2 raising operator, entry (1,0) = 1. -/
def create2 : Matrix (Fin 2) (Fin 2) ℂ := Matrix.of ![![0, 0], ![1, 0]]

/-- qutip `num(2)`: the 2x2 number operator, entry (1,1) = 1.  Also equals the
projector `basis(2,1) * basis(2,1).dag()` used in `compute_ipr`. -/
def num2 : Matrix (Fin 2) (Fin 2) ℂ := Matrix.of ![![0, 0], ![0, 1]]

/-- qutip `tensor(op_list)`: the ordered Kronecker product of one 2x2 factor per
site, realised on the index type `Fin N → Fin 2` (site 0 the leftmost factor). -/
def siteTensor (N : ℕ) (f : Fin N → Matrix (Fin 2) (Fin 2) ℂ) :
    Matrix (Fin N → Fin 2) (Fin N → Fin 2) ℂ :=
  Matrix.of fun a b => ∏ j, f j (a j) (b j)

/-- `operator_on_site(op, i, N)`: identity on every site except `op` at site `i`. -/
def operator_on_site (N : ℕ) (op : Matrix (Fin 2) (Fin 2) ℂ) (i : Fin N) :
    Matrix (Fin N → Fin 2) (Fin N → Fin 2) ℂ :=
  siteTensor N fun j => if j = i then op else 1

/-- `destroy_site(i, N)`. -/
def destroy_site (N : ℕ) (i : Fin N) : Matrix (Fin N → Fin 2) (Fin N → Fin 2) ℂ :=
  operator_on_site N destroy2 i

/-- `create_site(i, N)`. -/
def create_site (N : ℕ) (i : Fin N) : Matrix (Fin N → Fin 2) (Fin N → Fin 2) ℂ :=
  operator_on_site N create2 i

/-! ## SSH Hamiltonian (`ssh_hamiltonian_extended`) -/

/-- The hopping amplitude of bond `i`:
`base_t * (1 + disorder*(np.random.rand() - 0.5))`, where `u i` is the `i`-th
draw of the seeded uniform generator. -/
noncomputable def bondAmp (t1 t2 disorder : ℝ) (u : ℕ → ℝ) (i : ℕ) : ℝ :=
  (if i % 2 = 0 then t1 else t2) * (1 + disorder * (u i - 0.5))

/-- The left site of bond `i`. -/
def bondL (N : ℕ) (i : Fin (N - 1)) : Fin N :=
  ⟨i.val, by have := i.isLt; omega⟩

/-- The right site of bond `i`. -/
def bondR (N : ℕ) (i : Fin (N - 1)) : Fin N :=
  ⟨i.val + 1, by have := i.isLt; omega⟩

/-- `ssh_hamiltonian_extended(N, t1, t2, disorder)`: for each bond `i` in
`range(N-1)` adds `t_val * create_site(i)*destroy_site(i+1)` plus
`conjugate(t_val) * create_site(i+1)*destroy_site(i)`; `u` is the stream of
uniform draws consumed one per bond. -/
noncomputable def ssh_hamiltonian_extended (N : ℕ) (t1 t2 disorder : ℝ) (u : ℕ → ℝ) :
    Matrix (Fin N → Fin 2) (Fin N → Fin 2) ℂ :=
  ∑ i : Fin (N - 1),
    (((bondAmp t1 t2 disorder u i.val : ℝ) : ℂ) •
        (create_site N (bondL N i) * destroy_site N (bondR N i)) +
      (starRingEnd ℂ) ((bondAmp t1 t2 disorder u i.val : ℝ) : ℂ) •
        (create_site N (bondR N i) * destroy_site N (bondL N i)))

/-! ## Hermiticity lemmas for C1 -/

lemma siteTensor_conjTranspose (N : ℕ) (f : Fin N → Matrix (Fin 2) (Fin 2) ℂ) :
    (siteTensor N f)ᴴ = siteTensor N fun j => (f j)ᴴ := by
  ext a b
  simp [siteTensor, Matrix.conjTranspose_apply, star_prod]

lemma operator_on_site_conjTranspose (N : ℕ) (op : Matrix (Fin 2) (Fin 2) ℂ) (i : Fin N) :
    (operator_on_site N op i)ᴴ = operator_on_site N opᴴ i := by
  rw [operator_on_site, operator_on_site, siteTensor_conjTranspose]
  simp only [apply_ite Matrix.conjTranspose, Matrix.conjTranspose_one]

lemma create2_conjTranspose : create2ᴴ = destroy2 := by
  ext i j
  fin_cases i <;> fin_cases j <;>
    simp [create2, destroy2, Matrix.conjTranspose_apply]

lemma destroy2_conjTranspose : destroy2ᴴ = create2 := by
  ext i j
  fin_cases i <;> fin_cases j <;>
    simp [create2, destroy2, Matrix.conjTranspose_apply]

lemma create_site_conjTranspose (N : ℕ) (i : Fin N) :
    (create_site N i)ᴴ = destroy_site N i := by
  rw [create_site, destroy_site, operator_on_site_conjTranspose, create2_conjTranspose]

lemma destroy_site_conjTranspose (N : ℕ) (i : Fin N) :
    (destroy_site N i)ᴴ = create_site N i := by
  rw [create_site, destroy_site, operator_on_site_conjTranspose, destroy2_conjTranspose]

/-- C1: for every `N ≥ 2`, all couplings `t1, t2`, every disorder fraction and
every random stream, the SSH Hamiltonian built by `ssh_hamiltonian_extended`
equals its own conjugate transpose: each bond contributes
`amplitude·(raise_i·lower_{i+1}) + conjugate(amplitude)·(raise_{i+1}·lower_i)`,
which is a Hermitian pair. -/
theorem ssh_hamiltonian_extended_hermitian (N : ℕ) (t1 t2 disorder : ℝ) (u : ℕ → ℝ)
    (hN : 2 ≤ N) :
    (ssh_hamiltonian_extended N t1 t2 disorder u)ᴴ =
      ssh_hamiltonian_extended N t1 t2 disorder u := by
  unfold ssh_hamiltonian_extended
  rw [Matrix.conjTranspose_sum]
  refine Finset.sum_congr rfl fun i _ => ?_
  rw [Matrix.conjTranspose_add, Matrix.conjTranspose_smul, Matrix.conjTranspose_smul,
    Matrix.conjTranspose_mul, Matrix.conjTranspose_mul,
    create_site_conjTranspose, destroy_site_conjTranspose,
    create_site_conjTranspose, destroy_site_conjTranspose]
  simp only [Complex.star_def, Complex.conj_conj]
  exact add_comm _ _

/-- C1 witness: the theorem instantiated at `N = 2`, `t1 = t2 = 1`,
`disorder = 0`, the zero random stream. -/
theorem ssh_hamiltonian_extended_hermitian_witness :
    (ssh_hamiltonian_extended 2 1 1 0 fun _ => 0)ᴴ =
      ssh_hamiltonian_extended 2 1 1 0 fun _ => 0 :=
  ssh_hamiltonian_extended_hermitian 2 1 1 0 (fun _ => 0) (by norm_num)

end PQC

namespace PQC

/-! ## Measurement simulator (`measure_in_subspace`, `repeated_measurement`) -/

/-- `measure_in_subspace(rho, P_plus, P_minus)`: one projective shot.  `rand` is
the uniform stream of the global generator and `k` the next-draw index (a draw
is consumed only on the non-degenerate branch, as in the source). -/
noncomputable def measure_in_subspace {q : Type} [Fintype q] [DecidableEq q]
    (rho P_plus P_minus : Matrix q q ℂ) (rand : ℕ → ℝ) (k : ℕ) :
    ℤ × Matrix q q ℂ × ℕ :=
  if ((P_plus * rho).trace).re + ((P_minus * rho).trace).re < 1e-14 then (0, rho, k)
  else if rand k < ((P_plus * rho).trace).re /
      (((P_plus * rho).trace).re + ((P_minus * rho).trace).re) then
    (1, ((((P_plus * rho).trace).re : ℂ))⁻¹ • (P_plus * rho * P_plus), k + 1)
  else
    (-1, ((((P_minus * rho).trace).re : ℂ))⁻¹ • (P_minus * rho * P_minus), k + 1)

/-- The `outcomes` list of `repeated_measurement`: `n` single shots, each from
the same unmodified `rho`, threading the generator position. -/
noncomputable def measurement_outcomes {q : Type} [Fintype q] [DecidableEq q]
    (rho P_plus P_minus : Matrix q q ℂ) (rand : ℕ → ℝ) : ℕ → ℕ → List ℤ
  | _, 0 => []
  | k, n + 1 =>
    (measure_in_subspace rho P_plus P_minus rand k).1 ::
      measurement_outcomes rho P_plus P_minus rand
        (measure_in_subspace rho P_plus P_minus rand k).2.2 n

/-- `repeated_measurement(rho, P_plus, P_minus, num_trials)`: returns
`(plus_count, num_trials - plus_count)` where `plus_count` counts outcomes
equal to `+1` (the source computes `minus_count` by subtraction). -/
noncomputable def repeated_measurement {q : Type} [Fintype q] [DecidableEq q]
    (rho P_plus P_minus : Matrix q q ℂ) (rand : ℕ → ℝ) (num_trials : ℕ) : ℕ × ℕ :=
  ((measurement_outcomes rho P_plus P_minus rand 0 num_trials).count 1,
    num_trials - (measurement_outcomes rho P_plus P_minus rand 0 num_trials).count 1)

/-- On a non-degenerate pair every outcome is `+1` or `-1`, and the two counts
add up to the number of trials. -/
lemma measurement_counts_aux {q : Type} [Fintype q] [DecidableEq q]
    (rho P_plus P_minus : Matrix q q ℂ) (rand : ℕ → ℝ)
    (h : ¬ (((P_plus * rho).trace).re + ((P_minus * rho).trace).re < 1e-14)) (n : ℕ) :
    ∀ k, (measurement_outcomes rho P_plus P_minus rand k n).count 1 +
      (measurement_outcomes rho P_plus P_minus rand k n).count (-1) = n := by
  induction n with
  | zero => intro k; simp [measurement_outcomes]
  | succ n ih =>
    intro k
    rw [measurement_outcomes]
    simp only [List.count_cons]
    have hone : (measure_in_subspace rho P_plus P_minus rand k).1 = 1 ∨
        (measure_in_subspace rho P_plus P_minus rand k).1 = -1 := by
      rw [measure_in_subspace, if_neg h]
      split
      · exact Or.inl rfl
      · exact Or.inr rfl
    have hrec := ih ((measure_in_subspace rho P_plus P_minus rand k).2.2)
    rcases hone with h1 | h1 <;> rw [h1] <;> simp <;> omega

/-- C2 (amended): when the pair is non-degenerate
(`p_plus + p_minus ≥ 1e-14`), `repeated_measurement` returns the pair
(number of `+1` outcomes, number of `-1` outcomes) over `n` single shots each
starting from the same unmodified `rho`. -/
theorem repeated_measurement_counts {q : Type} [Fintype q] [DecidableEq q]
    (rho P_plus P_minus : Matrix q q ℂ) (rand : ℕ → ℝ) (n : ℕ)
    (h : ¬ (((P_plus * rho).trace).re + ((P_minus * rho).trace).re < 1e-14)) :
    repeated_measurement rho P_plus P_minus rand n =
      ((measurement_outcomes rho P_plus P_minus rand 0 n).count 1,
        (measurement_outcomes rho P_plus P_minus rand 0 n).count (-1)) := by
  have aux := measurement_counts_aux rho P_plus P_minus rand h n 0
  rw [repeated_measurement]
  exact Prod.ext rfl (by omega)

/-- C2 witness: a 1-dimensional 'space' with `P_plus = rho = 1`, `P_minus = 0`;
the non-degeneracy hypothesis is discharged by computation. -/
theorem repeated_measurement_counts_witness :
    repeated_measurement (1 : Matrix (Fin 1) (Fin 1) ℂ) 1 0 (fun _ => 0) 1 =
      ((measurement_outcomes (1 : Matrix (Fin 1) (Fin 1) ℂ) 1 0 (fun _ => 0) 0 1).count 1,
        (measurement_outcomes (1 : Matrix (Fin 1) (Fin 1) ℂ) 1 0 (fun _ => 0) 0 1).count (-1)) :=
  repeated_measurement_counts _ _ _ _ _ (by norm_num)

/-- C2 counterexample: on a fully degenerate pair (`P_plus = P_minus = 0`)
every outcome is the sentinel `0`, yet `repeated_measurement` reports
`num_trials - plus_count = 1` as the minus count while no trial had outcome
`-1`; the claimed pair of counts is not what is returned. -/
theorem repeated_measurement_cex :
    repeated_measurement (1 : Matrix (Fin 1) (Fin 1) ℂ) 0 0 (fun _ => 0) 1 ≠
      ((measurement_outcomes (1 : Matrix (Fin 1) (Fin 1) ℂ) 0 0 (fun _ => 0) 0 1).count 1,
        (measurement_outcomes (1 : Matrix (Fin 1) (Fin 1) ℂ) 0 0 (fun _ => 0) 0 1).count (-1)) := by
  have hm : measure_in_subspace (1 : Matrix (Fin 1) (Fin 1) ℂ) 0 0 (fun _ => 0) 0 =
      (0, 1, 0) := by
    rw [measure_in_subspace, if_pos (by norm_num)]
  have houts : measurement_outcomes (1 : Matrix (Fin 1) (Fin 1) ℂ) 0 0 (fun _ => 0) 0 1 =
      [0] := by
    rw [measurement_outcomes, hm]
    rw [measurement_outcomes]
  rw [repeated_measurement, houts]
  simp

/-- C6: if `p_plus + p_minus < 1e-14` the degenerate branch returns the
sentinel outcome `0` together with `rho` itself, unchanged, consuming no
random draw and raising no error. -/
theorem measure_in_subspace_degenerate {q : Type} [Fintype q] [DecidableEq q]
    (rho P_plus P_minus : Matrix q q ℂ) (rand : ℕ → ℝ) (k : ℕ)
    (h : ((P_plus * rho).trace).re + ((P_minus * rho).trace).re < 1e-14) :
    measure_in_subspace rho P_plus P_minus rand k = (0, rho, k) := by
  rw [measure_in_subspace, if_pos h]

/-- C6 witness: `rho = 1` on a 1-dimensional space with both operators zero. -/
theorem measure_in_subspace_degenerate_witness :
    measure_in_subspace (1 : Matrix (Fin 1) (Fin 1) ℂ) 0 0 (fun _ => 0) 0 =
      (0, 1, 0) :=
  measure_in_subspace_degenerate _ _ _ _ _ (by norm_num)

/-! ## Python list-indexing semantics of `operator_on_site` (C5) -/

/-- `operator_on_site(op, i, N)` with the Python semantics of
`op_list[i] = op`: an index in `[0, N)` is used directly, a negative index in
`[-N, 0)` wraps to site `N + i`, and any other index raises (`none`). -/
def operator_on_site_py (op : Matrix (Fin 2) (Fin 2) ℂ) (i : ℤ) (N : ℕ) :
    Option (Matrix (Fin N → Fin 2) (Fin N → Fin 2) ℂ) :=
  if h : 0 ≤ i ∧ i < N then some (operator_on_site N op ⟨i.toNat, by omega⟩)
  else if h2 : -(N : ℤ) ≤ i ∧ i < 0 then
    some (operator_on_site N op ⟨(i + N).toNat, by omega⟩)
  else none

/-- C5 counterexample: at `N = 1` the negative index `i = -1` does not fail
(it wraps to the last site), so failure is not equivalent to `i ∉ [0, N)`. -/
theorem operator_on_site_py_cex :
    ¬ (((operator_on_site_py destroy2 (-1) 1).isSome = true) ↔
      (0 ≤ (-1 : ℤ) ∧ (-1 : ℤ) < (1 : ℕ))) := by
  rw [operator_on_site_py, dif_neg (by norm_num), dif_pos (by norm_num)]
  simp

/-- C5 (amended): `operator_on_site` fails exactly when `i < -N` or `i ≥ N`;
an index in `[0, N)` places `op` at site `i` (site 0 the leftmost factor) with
identities elsewhere, and a negative index in `[-N, 0)` succeeds too, placing
`op` at site `N + i`. -/
theorem operator_on_site_py_spec (op : Matrix (Fin 2) (Fin 2) ℂ) (N : ℕ) (i : ℤ) :
    ((operator_on_site_py op i N).isSome ↔ (-(N : ℤ) ≤ i ∧ i < N)) ∧
      (∀ iF : Fin N,
        operator_on_site_py op iF.val N = some (operator_on_site N op iF) ∧
        operator_on_site_py op ((iF.val : ℤ) - N) N = some (operator_on_site N op iF)) := by
  constructor
  · rw [operator_on_site_py]
    split_ifs with h1 h2
    · have hgoal : -(N : ℤ) ≤ i ∧ i < N := by omega
      simp [hgoal]
    · have hgoal : -(N : ℤ) ≤ i ∧ i < N := by omega
      simp [hgoal]
    · have hgoal : ¬ (-(N : ℤ) ≤ i ∧ i < N) := by omega
      simp [hgoal]
  · intro iF
    have hlt := iF.isLt
    constructor
    · rw [operator_on_site_py, dif_pos ⟨Int.natCast_nonneg _, by exact_mod_cast hlt⟩]
      exact congrArg _ (congrArg _ (Fin.ext (by simp)))
    · rw [operator_on_site_py, dif_neg (by omega), dif_pos (by omega)]
      refine congrArg _ (congrArg _ (Fin.ext ?_))
      show ((iF.val : ℤ) - N + N).toNat = iF.val
      omega

/-! ## Holographic OAM qudit encoder (`dft_operator`,
`combined_nonlinear_interaction`) -/

/-- `np.arange(-dim//2, dim//2)[j]`: the OAM index of mode `j`, starting from
the Python floor division `-dim//2`. -/
def lvals (d : ℕ) (j : Fin d) : ℤ := Int.fdiv (-(d : ℤ)) 2 + j.val

/-- The diagonal Kerr phase matrix `diag(np.exp(1j*chi*l_vals**2))` built
inside `combined_nonlinear_interaction`. -/
noncomputable def nonlinear_gate (d : ℕ) (chi : ℝ) : Matrix (Fin d) (Fin d) ℂ :=
  Matrix.diagonal fun j => Complex.exp (Complex.I * chi * ((lvals d j : ℤ) : ℂ) ^ 2)

/-- `dft_operator(dim)`: `F[i][j] = omega^(i*j) / sqrt(dim)` with
`omega = exp(2*pi*1j/dim)`. -/
noncomputable def dft_operator (d : ℕ) : Matrix (Fin d) (Fin d) ℂ :=
  Matrix.of fun i j =>
    Complex.exp (2 * Real.pi * Complex.I / d) ^ (i.val * j.val) / (Real.sqrt d : ℝ)

/-- `combined_nonlinear_interaction(dim, chi) = U_DFT * H_nl * U_DFT.dag()`. -/
noncomputable def combined_nonlinear_interaction (d : ℕ) (chi : ℝ) :
    Matrix (Fin d) (Fin d) ℂ :=
  dft_operator d * nonlinear_gate d chi * (dft_operator d)ᴴ

/-- Python `(-d)//2 = -((d+1)/2)` (floor division versus Nat ceiling). -/
lemma fdiv_neg_two (d : ℕ) : Int.fdiv (-(d : ℤ)) 2 = -(((d + 1) / 2 : ℕ) : ℤ) := by
  cases d with
  | zero => rfl
  | succ m =>
    have h1 : (-(((m : ℕ) + 1 : ℕ) : ℤ)) = Int.negSucc m := by
      rw [Int.negSucc_eq]
      push_cast
      ring
    rw [h1]
    have h2 : Int.fdiv (Int.negSucc m) 2 = Int.negSucc (m / 2) := rfl
    rw [h2, Int.negSucc_eq]
    have h3 : (m + 1 + 1) / 2 = m / 2 + 1 := by omega
    rw [h3]
    push_cast
    ring

/-- C3 counterexample: for the odd dimension `d = 1` at `chi = π` the built
diagonal entry is `exp(iπ·(-1)²) = -1`, not the claimed
`exp(iπ·(0 - ⌊1/2⌋)²) = 1`. -/
theorem nonlinear_gate_cex :
    nonlinear_gate 1 Real.pi 0 0 ≠
      Complex.exp (Complex.I * Real.pi *
        (((((0 : Fin 1).val : ℤ) - (((1 : ℕ) / 2 : ℕ) : ℤ)) : ℂ)) ^ 2) := by
  have hL : nonlinear_gate 1 Real.pi 0 0 = -1 := by
    rw [nonlinear_gate, Matrix.diagonal_apply_eq]
    have h1 : lvals 1 0 = -1 := by decide
    rw [h1]
    norm_num
    rw [mul_comm Complex.I (Real.pi : ℂ), Complex.exp_pi_mul_I]
  have hR : Complex.exp (Complex.I * Real.pi *
      (((((0 : Fin 1).val : ℤ) - (((1 : ℕ) / 2 : ℕ) : ℤ)) : ℂ)) ^ 2) = 1 := by
    norm_num
  rw [hL, hR]
  norm_num

/-- C3 (amended): the diagonal entry of the Kerr phase matrix at mode `j` is
`exp(iχl²)` with `l = j - ⌈d/2⌉` (equivalently `j + (-d//2)` with Python floor
division); this coincides with `j - ⌊d/2⌋` only for even `d`. -/
theorem nonlinear_gate_diag_entry (d : ℕ) (chi : ℝ) (j : Fin d) :
    nonlinear_gate d chi j j =
      Complex.exp (Complex.I * chi *
        ((((j.val : ℤ) - (((d + 1) / 2 : ℕ) : ℤ)) : ℂ)) ^ 2) := by
  rw [nonlinear_gate, Matrix.diagonal_apply_eq]
  have harg : ((lvals d j : ℤ) : ℂ) = (((j.val : ℤ) - (((d + 1) / 2 : ℕ) : ℤ)) : ℂ) := by
    rw [lvals, fdiv_neg_two]
    push_cast
    ring
  rw [harg]

/-! ## DFT unitarity and the `chi = 0` identity (C4) -/

lemma dft_omega_pow_self (d : ℕ) (hd : d ≠ 0) :
    Complex.exp (2 * Real.pi * Complex.I / d) ^ d = 1 := by
  rw [← Complex.exp_nat_mul]
  have hdc : (d : ℂ) ≠ 0 := Nat.cast_ne_zero.mpr hd
  rw [mul_comm, div_mul_cancel₀ _ hdc, Complex.exp_two_pi_mul_I]

lemma two_pi_I_ne_zero : (2 * (Real.pi : ℂ) * Complex.I) ≠ 0 := by
  simp [Real.pi_ne_zero, Complex.I_ne_zero, Complex.ofReal_ne_zero]

/-- Powers `omega^a` for `a < d` are pairwise distinct. -/
lemma dft_omega_pow_inj (d : ℕ) (hd : d ≠ 0) {a b : ℕ} (ha : a < d) (hb : b < d)
    (hab : Complex.exp (2 * Real.pi * Complex.I / d) ^ a =
      Complex.exp (2 * Real.pi * Complex.I / d) ^ b) : a = b := by
  by_contra hne
  rw [← Complex.exp_nat_mul, ← Complex.exp_nat_mul,
    Complex.exp_eq_exp_iff_exp_sub_eq_one] at hab
  have hsub : (a : ℂ) * (2 * Real.pi * Complex.I / d) -
      (b : ℂ) * (2 * Real.pi * Complex.I / d) =
      ((a : ℂ) - b) * (2 * Real.pi * Complex.I / d) := by ring
  rw [hsub, Complex.exp_eq_one_iff] at hab
  obtain ⟨k, hk⟩ := hab
  have hdc : (d : ℂ) ≠ 0 := Nat.cast_ne_zero.mpr hd
  have h2 : ((a : ℂ) - b) * (2 * Real.pi * Complex.I) =
      ((k : ℂ) * d) * (2 * Real.pi * Complex.I) := by
    field_simp at hk
    linear_combination hk
  have hcast : ((a : ℂ) - b) = (k : ℂ) * d := mul_right_cancel₀ two_pi_I_ne_zero h2
  have hint : (a : ℤ) - b = k * d := by exact_mod_cast hcast
  have hdz : 0 < (d : ℤ) := by exact_mod_cast Nat.pos_of_ne_zero hd
  rcases lt_trichotomy k 0 with hk0 | hk0 | hk0
  · have hk1 : k ≤ -1 := by omega
    have : k * (d : ℤ) ≤ -1 * d := mul_le_mul_of_nonneg_right hk1 (le_of_lt hdz)
    omega
  · subst hk0
    omega
  · have hk1 : 1 ≤ k := by omega
    have : 1 * (d : ℤ) ≤ k * d := mul_le_mul_of_nonneg_right hk1 (le_of_lt hdz)
    omega

/-- `F · F† = 1`: the DFT operator is unitary. -/
lemma dft_mul_conjTranspose (d : ℕ) : dft_operator d * (dft_operator d)ᴴ = 1 := by
  rcases Nat.eq_zero_or_pos d with hd0 | hdpos
  · subst hd0
    ext i j
    exact absurd i.isLt (by omega)
  have hd : d ≠ 0 := Nat.pos_iff_ne_zero.mp hdpos
  have hdc : (d : ℂ) ≠ 0 := Nat.cast_ne_zero.mpr hd
  have hw0 : Complex.exp (2 * Real.pi * Complex.I / d) ≠ 0 := Complex.exp_ne_zero _
  have hstar : star (Complex.exp (2 * Real.pi * Complex.I / d)) =
      (Complex.exp (2 * Real.pi * Complex.I / d))⁻¹ := by
    have harg : (starRingEnd ℂ) (2 * (Real.pi : ℂ) * Complex.I / (d : ℂ)) =
        -(2 * (Real.pi : ℂ) * Complex.I / (d : ℂ)) := by
      rw [map_div₀]
      simp [Complex.conj_I, Complex.conj_ofReal, map_ofNat]
      ring
    calc star (Complex.exp (2 * Real.pi * Complex.I / d))
        = Complex.exp ((starRingEnd ℂ) (2 * (Real.pi : ℂ) * Complex.I / (d : ℂ))) :=
          (Complex.exp_conj _).symm
      _ = Complex.exp (-(2 * (Real.pi : ℂ) * Complex.I / (d : ℂ))) := by rw [harg]
      _ = (Complex.exp (2 * Real.pi * Complex.I / d))⁻¹ := Complex.exp_neg _
  have hcc : ((Real.sqrt d : ℝ) : ℂ) * ((Real.sqrt d : ℝ) : ℂ) = (d : ℂ) := by
    rw [← Complex.ofReal_mul, Real.mul_self_sqrt (Nat.cast_nonneg d)]
    push_cast
    rfl
  ext i j
  rw [Matrix.mul_apply]
  have hterm : ∀ k : Fin d,
      dft_operator d i k * (dft_operator d)ᴴ k j =
      (Complex.exp (2 * Real.pi * Complex.I / d) ^ i.val *
        (Complex.exp (2 * Real.pi * Complex.I / d) ^ j.val)⁻¹) ^ k.val / d := by
    intro k
    rw [Matrix.conjTranspose_apply]
    show Complex.exp (2 * Real.pi * Complex.I / d) ^ (i.val * k.val) / (Real.sqrt d : ℝ) *
        star (Complex.exp (2 * Real.pi * Complex.I / d) ^ (j.val * k.val) / (Real.sqrt d : ℝ)) = _
    rw [star_div₀, star_pow, hstar, Complex.star_def, Complex.conj_ofReal,
      div_mul_div_comm, hcc, mul_pow, pow_mul, pow_mul, inv_pow]
  rw [Finset.sum_congr rfl fun k _ => hterm k, ← Finset.sum_div]
  rw [Fin.sum_univ_eq_sum_range
    (fun k => (Complex.exp (2 * Real.pi * Complex.I / d) ^ i.val *
      (Complex.exp (2 * Real.pi * Complex.I / d) ^ j.val)⁻¹) ^ k) d]
  by_cases hij : i = j
  · subst hij
    rw [mul_inv_cancel₀ (pow_ne_zero _ hw0)]
    simp only [one_pow, Finset.sum_const, Finset.card_range, nsmul_eq_mul, mul_one]
    rw [div_self hdc, Matrix.one_apply_eq]
  · have hz1 : Complex.exp (2 * Real.pi * Complex.I / d) ^ i.val *
        (Complex.exp (2 * Real.pi * Complex.I / d) ^ j.val)⁻¹ ≠ 1 := by
      intro hcon
      rw [mul_inv_eq_one₀ (pow_ne_zero _ hw0)] at hcon
      exact hij (Fin.ext (dft_omega_pow_inj d hd i.isLt j.isLt hcon))
    have hzd : (Complex.exp (2 * Real.pi * Complex.I / d) ^ i.val *
        (Complex.exp (2 * Real.pi * Complex.I / d) ^ j.val)⁻¹) ^ d = 1 := by
      rw [mul_pow, inv_pow, pow_right_comm _ i.val d, pow_right_comm _ j.val d,
        dft_omega_pow_self d hd, one_pow, one_pow, inv_one, mul_one]
    rw [geom_sum_eq hz1 d, hzd, sub_self, zero_div, zero_div,
      Matrix.one_apply_ne hij]

/-- At `chi = 0` every Kerr phase is `exp(0) = 1`. -/
lemma nonlinear_gate_zero (d : ℕ) : nonlinear_gate d 0 = 1 := by
  rw [nonlinear_gate]
  have h1 : (fun j => Complex.exp (Complex.I * ((0 : ℝ) : ℂ) * ((lvals d j : ℤ) : ℂ) ^ 2)) =
      fun _ : Fin d => (1 : ℂ) := by
    funext j
    simp
  rw [h1, Matrix.diagonal_one]

/-- `combined_nonlinear_interaction(d, 0) = F · 1 · F† = 1`. -/
lemma combined_nonlinear_interaction_zero (d : ℕ) :
    combined_nonlinear_interaction d 0 = 1 := by
  rw [combined_nonlinear_interaction, nonlinear_gate_zero, mul_one,
    dft_mul_conjTranspose]

/-- C4 counterexample: the unit vector `psi = e₀` in dimension 2.  Applying
`combined_nonlinear_interaction(2, 0)` (the identity) leaves the distribution
`(1, 0)`, while the DFT alone gives `(1/2, 1/2)`: the two distributions differ
at mode 1. -/
theorem combined_distribution_cex :
    (∑ j : Fin 2, Complex.abs ((![1, 0] : Fin 2 → ℂ) j) ^ 2 = 1) ∧
      Complex.abs ((combined_nonlinear_interaction 2 0 *ᵥ ![1, 0]) 1) ^ 2 ≠
        Complex.abs ((dft_operator 2 *ᵥ ![1, 0]) 1) ^ 2 := by
  constructor
  · simp [Fin.sum_univ_two]
  · rw [combined_nonlinear_interaction_zero, Matrix.one_mulVec]
    have hdft : (dft_operator 2 *ᵥ ![1, 0]) 1 = 1 / ((Real.sqrt 2 : ℝ) : ℂ) := by
      show (∑ k : Fin 2, dft_operator 2 1 k * (![1, 0] : Fin 2 → ℂ) k) = _
      rw [Fin.sum_univ_two]
      show Complex.exp (2 * Real.pi * Complex.I / 2) ^ (1 * 0) / (Real.sqrt 2 : ℝ) * 1 +
          Complex.exp (2 * Real.pi * Complex.I / 2) ^ (1 * 1) / (Real.sqrt 2 : ℝ) * 0 = _
      norm_num
    rw [hdft]
    have habs : Complex.abs (1 / ((Real.sqrt 2 : ℝ) : ℂ)) ^ 2 = 1 / 2 := by
      rw [map_div₀, Complex.abs_ofReal, abs_eq_self.mpr (Real.sqrt_nonneg 2),
        div_pow, Real.sq_sqrt (by norm_num : (0 : ℝ) ≤ 2)]
      norm_num
    rw [habs]
    simp

/-- C4 (amended): for `chi = 0` the combined transform is the identity
`F·1·F† = 1`, so the output probability distribution equals the distribution of
the input state itself (not the DFT-transformed distribution). -/
theorem combined_zero_distribution (d : ℕ) (hd : 1 ≤ d) (psi : Fin d → ℂ)
    (hpsi : ∑ j, Complex.abs (psi j) ^ 2 = 1) (j : Fin d) :
    Complex.abs ((combined_nonlinear_interaction d 0 *ᵥ psi) j) ^ 2 =
      Complex.abs (psi j) ^ 2 := by
  rw [combined_nonlinear_interaction_zero, Matrix.one_mulVec]

/-- C4 witness: dimension 1, the unit state `![1]`. -/
theorem combined_zero_distribution_witness :
    Complex.abs ((combined_nonlinear_interaction 1 0 *ᵥ ![1]) 0) ^ 2 =
      Complex.abs ((![1] : Fin 1 → ℂ) 0) ^ 2 :=
  combined_zero_distribution 1 (by norm_num) ![1] (by simp) 0

/-! ## Embedded qubit (`EmbeddedQubit.measurement_operators`) -/

/-- `qt.sigmaz()`. -/
def sigmaz : Matrix (Fin 2) (Fin 2) ℂ := Matrix.of ![![1, 0], ![0, -1]]

/-- `qt.sigmax()`. -/
def sigmax : Matrix (Fin 2) (Fin 2) ℂ := Matrix.of ![![0, 1], ![1, 0]]

/-- `0.5 * (qeye(2) + sigmaz())`. -/
noncomputable def Pz0 : Matrix (Fin 2) (Fin 2) ℂ := (0.5 : ℂ) • (1 + sigmaz)

/-- `0.5 * (qeye(2) - sigmaz())`. -/
noncomputable def Pz1 : Matrix (Fin 2) (Fin 2) ℂ := (0.5 : ℂ) • (1 - sigmaz)

/-- `0.5 * (qeye(2) + sigmax())`. -/
noncomputable def Px0 : Matrix (Fin 2) (Fin 2) ℂ := (0.5 : ℂ) • (1 + sigmax)

/-- `0.5 * (qeye(2) - sigmax())`. -/
noncomputable def Px1 : Matrix (Fin 2) (Fin 2) ℂ := (0.5 : ℂ) • (1 - sigmax)

/-- `np.column_stack((psi_edge1, psi_edge2))`: the isometry `U` of
`EmbeddedQubit.__init__`. -/
def buildU {q : Type} (psi1 psi2 : q → ℂ) : Matrix q (Fin 2) ℂ :=
  Matrix.of fun r c => if c = 0 then psi1 r else psi2 r

/-- `EmbeddedQubit.embed_operator(A) = U @ A @ U.conj().T`. -/
noncomputable def embed_operator {q : Type} [Fintype q] (U : Matrix q (Fin 2) ℂ)
    (A : Matrix (Fin 2) (Fin 2) ℂ) : Matrix q q ℂ :=
  U * A * Uᴴ

/-- Python `str.lower()`: lowercase every character. -/
def pyLower (s : String) : String := String.mk (s.data.map Char.toLower)

/-- `EmbeddedQubit.measurement_operators(basis)`: case-insensitive match on
`basis.lower()`; unsupported strings raise (`none`). -/
noncomputable def measurement_operators {q : Type} [Fintype q] (U : Matrix q (Fin 2) ℂ)
    (basis : String) : Option (Matrix q q ℂ × Matrix q q ℂ) :=
  if pyLower basis = "z" then some (embed_operator U Pz0, embed_operator U Pz1)
  else if pyLower basis = "x" then some (embed_operator U Px0, embed_operator U Px1)
  else none

lemma Pz0_add_Pz1 : Pz0 + Pz1 = 1 := by
  ext i j
  fin_cases i <;> fin_cases j <;>
    simp [Pz0, Pz1, sigmaz, Matrix.one_apply] <;> norm_num

lemma Px0_add_Px1 : Px0 + Px1 = 1 := by
  ext i j
  fin_cases i <;> fin_cases j <;>
    simp [Px0, Px1, sigmax, Matrix.one_apply] <;> norm_num

/-- C8 counterexample: the uppercase string `"Z"` is neither `"z"` nor `"x"`,
yet `measurement_operators` accepts it (the source lowercases the basis before
matching). -/
theorem measurement_operators_cex :
    ((measurement_operators (0 : Matrix (Fin 1) (Fin 2) ℂ) "Z").isSome = true) ∧
      "Z" ≠ "z" ∧ "Z" ≠ "x" := by
  refine ⟨?_, by decide, by decide⟩
  rw [measurement_operators, if_pos (by decide)]
  rfl

/-- C8 (amended): `measurement_operators` matches the basis string
case-insensitively: it returns the embedded `½(I±σz)` pair whenever
`basis.lower() = "z"`, the embedded `½(I±σx)` pair whenever
`basis.lower() = "x"`, and errors on every other string. -/
theorem measurement_operators_spec {q : Type} [Fintype q] (U : Matrix q (Fin 2) ℂ)
    (basis : String) :
    (pyLower basis = "z" →
      measurement_operators U basis =
        some (embed_operator U Pz0, embed_operator U Pz1)) ∧
    (pyLower basis = "x" →
      measurement_operators U basis =
        some (embed_operator U Px0, embed_operator U Px1)) ∧
    (pyLower basis ≠ "z" → pyLower basis ≠ "x" →
      measurement_operators U basis = none) := by
  refine ⟨fun h => ?_, fun h => ?_, fun h1 h2 => ?_⟩
  · rw [measurement_operators, if_pos h]
  · rw [measurement_operators, if_neg (by rw [h]; decide), if_pos h]
  · rw [measurement_operators, if_neg h1, if_neg h2]

/-! ## Measurement probability bound (C7) -/

lemma trace_conjTranspose_mul_self_re_nonneg {q : Type} [Fintype q]
    (M : Matrix q q ℂ) : 0 ≤ ((Mᴴ * M).trace).re := by
  have h1 : ((Mᴴ * M).trace) = ∑ j, ∑ i, star (M i j) * M i j := by
    rw [Matrix.trace]
    refine Finset.sum_congr rfl fun j _ => ?_
    simp [Matrix.diag, Matrix.mul_apply, Matrix.conjTranspose_apply]
  rw [h1, Complex.re_sum]
  refine Finset.sum_nonneg fun j _ => ?_
  rw [Complex.re_sum]
  refine Finset.sum_nonneg fun i _ => ?_
  have h2 : star (M i j) * M i j = ((Complex.normSq (M i j) : ℝ) : ℂ) := by
    rw [Complex.star_def, mul_comm, Complex.mul_conj]
  rw [h2, Complex.ofReal_re]
  exact Complex.normSq_nonneg _

/-- The trace of a product of two positive-semidefinite matrices has
nonnegative real part. -/
lemma posSemidef_trace_mul_re_nonneg {q : Type} [Fintype q] [DecidableEq q]
    {A B : Matrix q q ℂ} (hA : A.PosSemidef) (hB : B.PosSemidef) :
    0 ≤ ((A * B).trace).re := by
  obtain ⟨C, hC⟩ := Matrix.posSemidef_iff_eq_transpose_mul_self.mp hA
  obtain ⟨D, hD⟩ := Matrix.posSemidef_iff_eq_transpose_mul_self.mp hB
  have key : (A * B).trace = (((C * Dᴴ)ᴴ) * (C * Dᴴ)).trace := by
    rw [hC, hD]
    have hM : ((C * Dᴴ)ᴴ) * (C * Dᴴ) = D * (Cᴴ * C * Dᴴ) := by
      rw [Matrix.conjTranspose_mul, Matrix.conjTranspose_conjTranspose,
        Matrix.mul_assoc D Cᴴ (C * Dᴴ), ← Matrix.mul_assoc Cᴴ C Dᴴ]
    rw [hM, Matrix.trace_mul_comm D (Cᴴ * C * Dᴴ), Matrix.mul_assoc (Cᴴ * C) Dᴴ D]
  rw [key]
  exact trace_conjTranspose_mul_self_re_nonneg _

/-- C7: for a density matrix `rho` (Hermitian positive-semidefinite with unit
trace) and measurement operators produced by `measurement_operators` from an
isometry with orthonormal columns (`Uᴴ·U = 1`), the probabilities computed in
`measure_in_subspace` satisfy `p_plus + p_minus ≤ 1`. -/
theorem measurement_probability_le_one {q : Type} [Fintype q] [DecidableEq q]
    (rho : Matrix q q ℂ) (hrho : rho.PosSemidef) (htr : rho.trace = 1)
    (U : Matrix q (Fin 2) ℂ) (hU : Uᴴ * U = 1) (basis : String)
    (P_plus P_minus : Matrix q q ℂ)
    (hmo : measurement_operators U basis = some (P_plus, P_minus)) :
    ((P_plus * rho).trace).re + ((P_minus * rho).trace).re ≤ 1 := by
  have hsum : P_plus + P_minus = U * Uᴴ := by
    rw [measurement_operators] at hmo
    split_ifs at hmo with h1 h2
    · have hpair := Option.some.inj hmo
      have hp : embed_operator U Pz0 = P_plus := congrArg Prod.fst hpair
      have hm : embed_operator U Pz1 = P_minus := congrArg Prod.snd hpair
      rw [← hp, ← hm, embed_operator, embed_operator, ← Matrix.add_mul, ← Matrix.mul_add,
        Pz0_add_Pz1, Matrix.mul_one]
    · have hpair := Option.some.inj hmo
      have hp : embed_operator U Px0 = P_plus := congrArg Prod.fst hpair
      have hm : embed_operator U Px1 = P_minus := congrArg Prod.snd hpair
      rw [← hp, ← hm, embed_operator, embed_operator, ← Matrix.add_mul, ← Matrix.mul_add,
        Px0_add_Px1, Matrix.mul_one]
  have hQ : (1 - U * Uᴴ).PosSemidef := by
    refine Matrix.posSemidef_iff_eq_transpose_mul_self.mpr ⟨1 - U * Uᴴ, ?_⟩
    have hH : (1 - U * Uᴴ)ᴴ = 1 - U * Uᴴ := by
      rw [Matrix.conjTranspose_sub, Matrix.conjTranspose_one, Matrix.conjTranspose_mul,
        Matrix.conjTranspose_conjTranspose]
    rw [hH]
    have hPP : U * Uᴴ * (U * Uᴴ) = U * Uᴴ := by
      rw [Matrix.mul_assoc U Uᴴ (U * Uᴴ), ← Matrix.mul_assoc Uᴴ U Uᴴ, hU, Matrix.one_mul]
    rw [sub_mul, mul_sub, mul_sub, hPP]
    simp
  have hkey : 0 ≤ (((1 - U * Uᴴ) * rho).trace).re :=
    posSemidef_trace_mul_re_nonneg hQ hrho
  have hexp : ((1 - U * Uᴴ) * rho).trace = 1 - ((U * Uᴴ) * rho).trace := by
    rw [sub_mul, one_mul, Matrix.trace_sub, htr]
  rw [hexp] at hkey
  have hre : (1 - ((U * Uᴴ) * rho).trace).re = 1 - (((U * Uᴴ) * rho).trace).re := by
    simp [Complex.sub_re, Complex.one_re]
  rw [hre] at hkey
  have hsum2 : ((P_plus * rho).trace).re + ((P_minus * rho).trace).re =
      (((U * Uᴴ) * rho).trace).re := by
    rw [← hsum, add_mul, Matrix.trace_add, Complex.add_re]
  rw [hsum2]
  linarith

/-- C7 witness: the 2-dimensional space with `rho = diag(1,0)`,
`U = [e₀ e₁]` (orthonormal columns) and the z basis. -/
theorem measurement_probability_le_one_witness :
    ((embed_operator (buildU ![1, 0] ![0, 1]) Pz0 *
        Matrix.diagonal ![(1 : ℂ), 0]).trace).re +
      ((embed_operator (buildU ![1, 0] ![0, 1]) Pz1 *
        Matrix.diagonal ![(1 : ℂ), 0]).trace).re ≤ 1 :=
  measurement_probability_le_one (Matrix.diagonal ![(1 : ℂ), 0])
    (Matrix.posSemidef_diagonal_iff.mpr (by
      intro i
      fin_cases i
      · exact zero_le_one
      · exact le_refl 0))
    (by simp [Matrix.trace_diagonal, Fin.sum_univ_two])
    (buildU ![1, 0] ![0, 1])
    (by
      ext i j
      fin_cases i <;> fin_cases j <;>
        simp [buildU, Matrix.mul_apply, Matrix.conjTranspose_apply,
          Fin.sum_univ_two, Matrix.one_apply])
    "z" _ _
    (by rw [measurement_operators, if_pos (by decide)])

/-! ## 2D Chern insulator (`hamiltonian_2D`, `berry_curvature`) -/

/-- `qt.sigmay()` analogue used by `hamiltonian_2D`. -/
def sigmay : Matrix (Fin 2) (Fin 2) ℂ := Matrix.of ![![0, -Complex.I], ![Complex.I, 0]]

/-- `hamiltonian_2D(kx, ky, m) = sin(kx)·σx + sin(ky)·σy +
(m + cos(kx) + cos(ky))·σz`. -/
noncomputable def hamiltonian_2D (kx ky m : ℝ) : Matrix (Fin 2) (Fin 2) ℂ :=
  ((Real.sin kx : ℝ) : ℂ) • sigmax + ((Real.sin ky : ℝ) : ℂ) • sigmay +
    (((m + Real.cos kx + Real.cos ky : ℝ)) : ℂ) • sigmaz

/-- `Ux[i,j] /= abs(Ux[i,j])`: unit-modulus normalization `z / |z|`. -/
noncomputable def normalizeLink (z : ℂ) : ℂ := z / (Complex.abs z : ℝ)

/-- The lower-band eigenvector grid `u[i,j] = eigh(H)[1][:,0]`: `lowerBand` is
the external eigensolver returning the eigenvector of the smaller eigenvalue. -/
noncomputable def berryU {nk : ℕ} (lowerBand : Matrix (Fin 2) (Fin 2) ℂ → (Fin 2 → ℂ))
    (kx ky : Fin nk → ℝ) (m : ℝ) (i j : Fin nk) : Fin 2 → ℂ :=
  lowerBand (hamiltonian_2D (kx i) (ky j) m)

/-- `Ux[i,j] = normalize(np.vdot(u[i,j], u[(i+1)%nk, j]))`; `Fin` addition is
the periodic wraparound. -/
noncomputable def linkUx {nk : ℕ} [NeZero nk] (u : Fin nk → Fin nk → Fin 2 → ℂ)
    (i j : Fin nk) : ℂ :=
  normalizeLink (star (u i j) ⬝ᵥ u (i + 1) j)

/-- `Uy[i,j] = normalize(np.vdot(u[i,j], u[i, (j+1)%nk]))`. -/
noncomputable def linkUy {nk : ℕ} [NeZero nk] (u : Fin nk → Fin nk → Fin 2 → ℂ)
    (i j : Fin nk) : ℂ :=
  normalizeLink (star (u i j) ⬝ᵥ u i (j + 1))

/-- `F[i,j] = np.angle(Ux[i,j]·Uy[i+1,j]·conj(Ux[i,j+1])·conj(Uy[i,j]))`. -/
noncomputable def plaqF {nk : ℕ} [NeZero nk] (u : Fin nk → Fin nk → Fin 2 → ℂ)
    (i j : Fin nk) : ℝ :=
  Complex.arg (linkUx u i j * linkUy u (i + 1) j *
    (starRingEnd ℂ) (linkUx u i (j + 1)) * (starRingEnd ℂ) (linkUy u i j))

/-- `berry_curvature(kx_vals, ky_vals, m)`: the plaquette flux map `F` and the
Chern number `np.sum(F) / (2π)`; the per-point eigensolver is an explicit
parameter. -/
noncomputable def berry_curvature {nk : ℕ} [NeZero nk]
    (lowerBand : Matrix (Fin 2) (Fin 2) ℂ → (Fin 2 → ℂ))
    (kx ky : Fin nk → ℝ) (m : ℝ) : (Fin nk → Fin nk → ℝ) × ℝ :=
  (fun i j => plaqF (berryU lowerBand kx ky m) i j,
    (∑ i, ∑ j, plaqF (berryU lowerBand kx ky m) i j) / (2 * Real.pi))

/-- C9: the link variables use periodic index wraparound (`Fin` addition is
addition mod `nk`) and have unit modulus whenever the overlap is nonzero;
every plaquette flux lies in the principal-value interval `(-π, π]`; and the
returned Chern number is the sum of all fluxes divided by `2π`. -/
theorem berry_curvature_spec (nk : ℕ) [NeZero nk]
    (lowerBand : Matrix (Fin 2) (Fin 2) ℂ → (Fin 2 → ℂ))
    (kx ky : Fin nk → ℝ) (m : ℝ) :
    (∀ i : Fin nk, ((i + 1 : Fin nk) : ℕ) = (i.val + 1) % nk) ∧
    (∀ i j : Fin nk,
      star (berryU lowerBand kx ky m i j) ⬝ᵥ berryU lowerBand kx ky m (i + 1) j ≠ 0 →
      Complex.abs (linkUx (berryU lowerBand kx ky m) i j) = 1) ∧
    (∀ i j : Fin nk,
      star (berryU lowerBand kx ky m i j) ⬝ᵥ berryU lowerBand kx ky m i (j + 1) ≠ 0 →
      Complex.abs (linkUy (berryU lowerBand kx ky m) i j) = 1) ∧
    (∀ i j : Fin nk,
      plaqF (berryU lowerBand kx ky m) i j ∈ Set.Ioc (-Real.pi) Real.pi) ∧
    (berry_curvature lowerBand kx ky m).2 =
      (∑ i, ∑ j, (berry_curvature lowerBand kx ky m).1 i j) / (2 * Real.pi) := by
  refine ⟨fun i => ?_, fun i j hz => ?_, fun i j hz => ?_, fun i j => ?_, rfl⟩
  · rw [Fin.val_add, Fin.val_one']
    conv_rhs => rw [Nat.add_mod]
    rw [Nat.mod_eq_of_lt i.isLt]
  · rw [linkUx, normalizeLink, map_div₀, Complex.abs_ofReal,
      abs_eq_self.mpr (Complex.abs.nonneg _), div_self (Complex.abs.ne_zero hz)]
  · rw [linkUy, normalizeLink, map_div₀, Complex.abs_ofReal,
      abs_eq_self.mpr (Complex.abs.nonneg _), div_self (Complex.abs.ne_zero hz)]
  · exact Set.mem_Ioc.mpr ⟨Complex.neg_pi_lt_arg _, Complex.arg_le_pi _⟩

/-- C9 witness: a 1×1 grid with a constant unit eigenvector, at `m = 0`;
the nonzero-overlap hypothesis is discharged by computing `⟨u,u⟩ = 1`. -/
theorem berry_curvature_spec_witness :
    Complex.abs (linkUx
      (berryU (fun _ => ![1, 0]) (fun _ : Fin 1 => 0) (fun _ : Fin 1 => 0) 0) 0 0) = 1 :=
  (berry_curvature_spec 1 (fun _ => ![1, 0]) (fun _ => 0) (fun _ => 0) 0).2.1 0 0 (by
    show star ((![1, 0] : Fin 2 → ℂ)) ⬝ᵥ (![1, 0] : Fin 2 → ℂ) ≠ 0
    simp [dotProduct, Fin.sum_univ_two])

/-! ## Seeded pipeline determinism (C10) -/

/-- `sum(operator_on_site(num(2), i, N) for i in range(N))`. -/
noncomputable def total_excitation (N : ℕ) : Matrix (Fin N → Fin 2) (Fin N → Fin 2) ℂ :=
  ∑ i : Fin N, operator_on_site N num2 i

/-- `compute_ipr(psi, N) = Σᵢ expect(proj_i, psi)²` with the per-site
excitation projector (`qt.expect` of a Hermitian operator returns the real
part of `⟨ψ|P|ψ⟩`). -/
noncomputable def compute_ipr (N : ℕ) (psi : (Fin N → Fin 2) → ℂ) : ℝ :=
  ∑ i : Fin N, ((star psi ⬝ᵥ ((operator_on_site N num2 i) *ᵥ psi)).re) ^ 2

/-- `compute_single_excitation_eigensystem(H, N)` applied to the eigenpair
list returned by the external solver: keeps the pairs whose total-excitation
expectation is within `1e-5` of 1. -/
noncomputable def compute_single_excitation_eigensystem (N : ℕ)
    (eigs : List (ℝ × ((Fin N → Fin 2) → ℂ))) : List (ℝ × ((Fin N → Fin 2) → ℂ)) :=
  eigs.filter fun p =>
    @decide (|(star p.2 ⬝ᵥ (total_excitation N *ᵥ p.2)).re - 1| < 1e-5)
      (Classical.propDecidable _)

/-- The seed-to-IPR pipeline: build the disordered SSH Hamiltonian from the
seeded generator stream `u`, diagonalize it through the external solver,
filter the single-excitation manifold, and map `compute_ipr` over it. -/
noncomputable def ipr_pipeline (N : ℕ) (t1 t2 disorder : ℝ)
    (solver : Matrix (Fin N → Fin 2) (Fin N → Fin 2) ℂ →
      List (ℝ × ((Fin N → Fin 2) → ℂ)))
    (u : ℕ → ℝ) : List ℝ :=
  (compute_single_excitation_eigensystem N
      (solver (ssh_hamiltonian_extended N t1 t2 disorder u))).map
    fun p => compute_ipr N p.2

/-- C10: the Hamiltonian → eigensystem → IPR pipeline is deterministic given
the seed: two runs whose identically seeded generators produce the same draw
stream, with the same (deterministic) external eigensolver, yield identical
IPR arrays. -/
theorem ipr_pipeline_deterministic (N : ℕ) (t1 t2 disorder : ℝ)
    (solver : Matrix (Fin N → Fin 2) (Fin N → Fin 2) ℂ →
      List (ℝ × ((Fin N → Fin 2) → ℂ)))
    (u1 u2 : ℕ → ℝ) (hseed : ∀ k, u1 k = u2 k) :
    ipr_pipeline N t1 t2 disorder solver u1 = ipr_pipeline N t1 t2 disorder solver u2 := by
  rw [funext hseed]

/-- C10 witness: `N = 6`, `t1 = 0.5`, `t2 = 1`, `disorder = 0.3`, a trivial
solver and the zero stream on both runs. -/
theorem ipr_pipeline_deterministic_witness :
    ipr_pipeline 6 0.5 1 0.3 (fun _ => []) (fun _ => 0) =
      ipr_pipeline 6 0.5 1 0.3 (fun _ => []) (fun _ => 0) :=
  ipr_pipeline_deterministic 6 0.5 1 0.3 (fun _ => []) (fun _ => 0) (fun _ => 0)
    (fun _ => rfl)

end PQC
